import Mathlib

/-!
Shallow embedding of the PII/PHI redaction engine (`src/lib/redact.js`) and the
privilege/PHI flagging engine (`src/lib/flagging.js`) of the
zero-error-contract-review repository.

Strings are modelled as `List Char` (JS strings at the code points the
repository manipulates, which are ASCII plus ordinary whitespace).  JavaScript
regular expressions are modelled by a small prioritized-backtracking matcher
(`Rx`, `mtch`) that reproduces the JS semantics for the constructs the
repository's patterns use: character classes, ordered alternation, greedy
optional/repetition, word boundaries, and the `g`-flag `exec` loop with its
`lastIndex` protocol.  The module-level mutable `lastIndex` of the redaction
catalog's regexes is made explicit as a `List Nat` state threaded through
`redactTextS`.
-/

namespace ContractReview

/-- Shorthand: a Lean string literal as the `List Char` the model works on. -/
def chars (s : String) : List Char := s.toList

/-- JS `\w` (and the word-ness test of `\b`): ASCII letters, digits, underscore. -/
def isWordChar (c : Char) : Bool := c.isAlpha || c.isDigit || c == '_'

/-- JS `\d`. -/
def isDigitChar (c : Char) : Bool := c.isDigit

/-- JS `\\s` (whitespace class, also used by `String.prototype.trim`):
tab, LF, VT, FF, CR, space, NBSP, Ogham space, the U+2000-U+200A range,
LS, PS, NNBSP, MMSP, ideographic space, BOM. -/
def isJsSpace (c : Char) : Bool :=
  c == ' ' || c == '\t' || c == '\n' || c == '\r' ||
  c.toNat == 0x000B || c.toNat == 0x000C || c.toNat == 0x00A0 || c.toNat == 0x1680 ||
  (decide (0x2000 ≤ c.toNat) && decide (c.toNat ≤ 0x200A)) ||
  c.toNat == 0x2028 || c.toNat == 0x2029 || c.toNat == 0x202F || c.toNat == 0x205F ||
  c.toNat == 0x3000 || c.toNat == 0xFEFF

/-- Regular-expression syntax actually used by the repository's patterns.
`rep p lo hi` is a greedy counted repetition of a one-character class
(`hi = none` means unbounded); grouped bounded repetitions are unrolled with
`opt`, preserving the greedy backtracking order. -/
inductive Rx where
  | eps : Rx
  | cls (p : Char → Bool) : Rx
  | seq (a b : Rx) : Rx
  | alt (a b : Rx) : Rx
  | opt (a : Rx) : Rx
  | rep (p : Char → Bool) (lo : Nat) (hi : Option Nat) : Rx
  | wb : Rx

/-- States reachable by consuming `0, 1, 2, …` leading characters of `rest`
that satisfy `p`, in that order, each paired with the character preceding the
remaining suffix (needed by `\b`). -/
def runStates (p : Char → Bool) : Option Char → List Char → List (Option Char × List Char)
  | prev, [] => [(prev, [])]
  | prev, c :: t => (prev, c :: t) :: (if p c then runStates p (some c) t else [])

/-- Word-ness of the character before the current position (`false` at the
start of the input). -/
def bndLeft (prev : Option Char) : Bool :=
  match prev with
  | none => false
  | some c => isWordChar c

/-- Word-ness of the character at the current position (`false` at the end of
the input). -/
def bndRight (rest : List Char) : Bool :=
  match rest with
  | [] => false
  | c :: _ => isWordChar c

/-- First success of `f` over a list, in order — the backtracking preference
order of a JS regex. -/
def firstSome (f : α → Option β) : List α → Option β
  | [] => none
  | x :: xs =>
    match f x with
    | some v => some v
    | none => firstSome f xs

/-- Prioritized backtracking matcher in continuation-passing style.  `prev` is
the character just before the current position (for `\b`), `rest` the remaining
input; the continuation receives the state after the sub-match.  The first
success in JS preference order (leftmost alternative first, greedy
longest-first repetition) is returned, exactly as a backtracking JS engine
does. -/
def mtch : Rx → Option Char → List Char → (Option Char → List Char → Option (List Char)) → Option (List Char)
  | .eps, prev, rest, k => k prev rest
  | .cls p, _, rest, k =>
    match rest with
    | [] => none
    | c :: t => if p c then k (some c) t else none
  | .seq a b, prev, rest, k => mtch a prev rest (fun p1 t1 => mtch b p1 t1 k)
  | .alt a b, prev, rest, k =>
    match mtch a prev rest k with
    | some v => some v
    | none => mtch b prev rest k
  | .opt a, prev, rest, k =>
    match mtch a prev rest k with
    | some v => some v
    | none => k prev rest
  | .rep p lo hi, prev, rest, k =>
    let sts := runStates p prev rest
    let sts := match hi with
      | some h => sts.take (h + 1)
      | none => sts
    firstSome (fun st => k st.1 st.2) ((sts.drop lo).reverse)
  | .wb, prev, rest, k =>
    if bndLeft prev != bndRight rest then k prev rest else none

/-- Syntactic check that every match of the expression consumes at least one
character (true for every pattern in the repository's catalogs; rules out the
zero-length-match pitfall of the JS `exec` loop). -/
def rxConsumes : Rx → Bool
  | .eps => false
  | .cls _ => true
  | .seq a b => rxConsumes a || rxConsumes b
  | .alt a b => rxConsumes a && rxConsumes b
  | .opt _ => false
  | .rep _ lo _ => decide (1 ≤ lo)
  | .wb => false

/-- Whole-pattern match attempt at the current position: returns the suffix
left over after the (preferred) match, like a JS engine anchoring `exec` at one
index. -/
def matchAt (r : Rx) (prev : Option Char) (rest : List Char) : Option (List Char) :=
  mtch r prev rest (fun _ t => some t)

/-- Scan rightwards for the leftmost position (from index `i`) where the
pattern matches; returns `(index, length)` of the match. -/
def execScan (r : Rx) : Option Char → List Char → Nat → Option (Nat × Nat)
  | prev, rest, i =>
    match matchAt r prev rest with
    | some t => some (i, rest.length - t.length)
    | none =>
      match rest with
      | [] => none
      | c :: tl => execScan r (some c) tl (i + 1)

/-- JS `regex.exec(s)` for a `g`-flag regex whose `lastIndex` is `li`: no match
once `li` runs past the end, otherwise the leftmost match at or after `li`. -/
def regexExec (r : Rx) (s : List Char) (li : Nat) : Option (Nat × Nat) :=
  if s.length < li then none
  else execScan r ((s.take li).getLast?) (s.drop li) li

/-- All matches of a freshly-created `g`-flag regex over `s`
(`while ((m = re.exec(s)) !== null)`), as `(index, length)` pairs.  The fuel
`s.length + 2` is enough for any pattern that consumes at least one character
per match; on a hypothetical zero-length-matching pattern the JS loop would not
terminate at all. -/
def rxScanAux (r : Rx) (s : List Char) : Nat → Nat → List (Nat × Nat)
  | 0, _ => []
  | fuel + 1, li =>
    match regexExec r s li with
    | none => []
    | some m => m :: rxScanAux r s fuel (m.1 + m.2)

/-- All `(index, length)` matches of `r` over `s`, scanning from index 0. -/
def rxScanAll (r : Rx) (s : List Char) : List (Nat × Nat) := rxScanAux r s (s.length + 2) 0

/-! Pattern-building helpers used to transcribe the source regex literals. -/

/-- A single literal character. -/
def lit1 (c : Char) : Rx := .cls (fun x => x == c)

/-- A literal character sequence. -/
def litRx : List Char → Rx
  | [] => .eps
  | c :: cs => .seq (lit1 c) (litRx cs)

/-- A single literal character under the `i` flag. -/
def ci1 (c : Char) : Rx := .cls (fun x => x.toLower == c.toLower)

/-- A literal character sequence under the `i` flag. -/
def ciLit : List Char → Rx
  | [] => .eps
  | c :: cs => .seq (ci1 c) (ciLit cs)

/-- Sequencing of a list of pieces. -/
def seqs : List Rx → Rx
  | [] => .eps
  | [r] => r
  | r :: rs => .seq r (seqs rs)

/-- Ordered alternation of a list of branches (JS tries them left to right). -/
def altsRx : List Rx → Rx
  | [] => .eps
  | [r] => r
  | r :: rs => .alt r (altsRx rs)

/-- Character-set class from an explicit list. -/
def oneOf (cs : List Char) : Rx := .cls (fun x => cs.contains x)

/-- Character range class (by code point), e.g. `[1-9]`. -/
def rangeCls (lo hi : Char) : Rx :=
  .cls (fun x => decide (lo.toNat ≤ x.toNat) && decide (x.toNat ≤ hi.toNat))

/-! The redaction engine (`src/lib/redact.js`). -/

/-- Luhn doubling step: double a digit and subtract 9 if the result exceeds 9. -/
def double9 (d : Nat) : Nat := if 9 < 2 * d then 2 * d - 9 else 2 * d

/-- The source's right-to-left accumulation: `isEven` starts `false` at the
last digit and toggles at each step; the list is the digits reversed. -/
def luhnAux : Bool → List Nat → Nat
  | _, [] => 0
  | isEven, d :: t => (if isEven then double9 d else d) + luhnAux (!isEven) t

/-- Numeric value of a digit character. -/
def digitVal (c : Char) : Nat := c.toNat - '0'.toNat

/-- `cardNumber.replace(/\D/g, '')`, as numeric digit values. -/
def digitsOf (s : List Char) : List Nat := (s.filter isDigitChar).map digitVal

/-- `luhnCheck` from `src/lib/redact.js`: digit count in [13,19] and the Luhn
mod-10 checksum. -/
def luhnCheck (cardNumber : List Char) : Bool :=
  let digits := digitsOf cardNumber
  if digits.length < 13 || decide (19 < digits.length) then false
  else luhnAux false digits.reverse % 10 == 0

/-- `validatePhone` from `src/lib/redact.js`: stripped-digit count in [10,15]. -/
def validatePhone (phone : List Char) : Bool :=
  let n := (phone.filter isDigitChar).length
  decide (10 ≤ n) && decide (n ≤ 15)

/-- A redaction pattern record: `{ type, regex, priority, confidence, validator }`. -/
structure RPattern where
  type : List Char
  regex : Rx
  priority : Nat
  confidence : List Char
  validator : Option (List Char → Bool)

/-- A raw candidate match as produced by `findMatches`.  The source field
`end` is spelled `endPos` (Lean keyword). -/
structure RMatch where
  type : List Char
  original : List Char
  start : Nat
  endPos : Nat
  confidence : List Char
  priority : Nat
deriving DecidableEq, Repr

/-- `[\s-]?` of the credit-card pattern. -/
def spDash : Rx := .rep (fun c => isJsSpace c || c == '-') 0 (some 1)

/-- `[\s.-]?` of the phone pattern. -/
def sepOpt : Rx := .rep (fun c => isJsSpace c || c == '.' || c == '-') 0 (some 1)

/-- `/\b\d{3}-\d{2}-\d{4}\b/g`. -/
def ssnRx : Rx :=
  seqs [.wb, .rep isDigitChar 3 (some 3), lit1 '-', .rep isDigitChar 2 (some 2),
        lit1 '-', .rep isDigitChar 4 (some 4), .wb]

/-- `/\b\d{4}[\s-]?\d{4}[\s-]?\d{4}[\s-]?\d{4}\b/g`. -/
def creditCardRx : Rx :=
  seqs [.wb, .rep isDigitChar 4 (some 4), spDash, .rep isDigitChar 4 (some 4), spDash,
        .rep isDigitChar 4 (some 4), spDash, .rep isDigitChar 4 (some 4), .wb]

/-- `/\b[A-Za-z0-9._%+-]+@[A-Za-z0-9.-]+\.[A-Za-z]{2,}\b/g`. -/
def emailRx : Rx :=
  seqs [.wb,
        .rep (fun c => c.isAlpha || c.isDigit || c == '.' || c == '_' || c == '%' || c == '+' || c == '-') 1 none,
        lit1 '@',
        .rep (fun c => c.isAlpha || c.isDigit || c == '.' || c == '-') 1 none,
        lit1 '.',
        .rep Char.isAlpha 2 none,
        .wb]

/-- `/(?:\+\d{1,3}[\s.-]?)?\(?\d{3}\)?[\s.-]?\d{3}[\s.-]?\d{4}|\+\d{1,3}[\s\d.-]{9,15}/g`. -/
def phoneRx : Rx :=
  .alt
    (seqs [.opt (seqs [lit1 '+', .rep isDigitChar 1 (some 3), sepOpt]),
           .opt (lit1 '('), .rep isDigitChar 3 (some 3), .opt (lit1 ')'), sepOpt,
           .rep isDigitChar 3 (some 3), sepOpt, .rep isDigitChar 4 (some 4)])
    (seqs [lit1 '+', .rep isDigitChar 1 (some 3),
           .rep (fun c => isJsSpace c || c.isDigit || c == '.' || c == '-') 9 (some 15)])

/-- `[-\/\.]` of the date pattern. -/
def dateSep : Rx := .cls (fun c => c == '-' || c == '/' || c == '.')

/-- `/\b(0?[1-9]|1[0-2])[-\/\.](0?[1-9]|[12]\d|3[01])[-\/\.](\d{2,4})\b/g`. -/
def dateRx : Rx :=
  seqs [.wb,
        .alt (.seq (.rep (fun c => c == '0') 0 (some 1)) (rangeCls '1' '9'))
             (.seq (lit1 '1') (rangeCls '0' '2')),
        dateSep,
        altsRx [.seq (.rep (fun c => c == '0') 0 (some 1)) (rangeCls '1' '9'),
                .seq (oneOf ['1', '2']) (rangeCls '0' '9'),
                .seq (lit1 '3') (oneOf ['0', '1'])],
        dateSep,
        .rep isDigitChar 2 (some 4),
        .wb]

/-- One octet `(?:25[0-5]|2[0-4][0-9]|[01]?[0-9][0-9]?)` of the IP pattern. -/
def ipOctet : Rx :=
  altsRx [.seq (litRx (chars "25")) (rangeCls '0' '5'),
          seqs [lit1 '2', rangeCls '0' '4', rangeCls '0' '9'],
          seqs [.rep (fun c => c == '0' || c == '1') 0 (some 1), rangeCls '0' '9',
                .rep (fun c => decide ('0'.toNat ≤ c.toNat) && decide (c.toNat ≤ '9'.toNat)) 0 (some 1)]]

/-- `/\b(?:(?:25[0-5]|2[0-4][0-9]|[01]?[0-9][0-9]?)\.){3}(?:25[0-5]|2[0-4][0-9]|[01]?[0-9][0-9]?)\b/g`. -/
def ipRx : Rx :=
  seqs [.wb, ipOctet, lit1 '.', ipOctet, lit1 '.', ipOctet, lit1 '.', ipOctet, .wb]

/-- `[A-Z][a-z]+\s+` under the `i` flag (any letter, then letters, then spaces). -/
def addrNameGroup : Rx :=
  seqs [.cls Char.isAlpha, .rep Char.isAlpha 1 none, .rep isJsSpace 1 none]

/-- The street-type alternation of the address pattern, case-insensitive, in
source order. -/
def streetTypeRx : Rx :=
  altsRx ((["Street", "St", "Avenue", "Ave", "Road", "Rd", "Boulevard", "Blvd",
            "Lane", "Ln", "Drive", "Dr", "Court", "Ct", "Way", "Circle", "Cir",
            "Place", "Pl"].map (fun w => ciLit (chars w))))

/-- `(?:\s+(?:Apt|Unit|Suite|Ste|#)\.?\s*\w+)?` under the `i` flag. -/
def aptPartRx : Rx :=
  .opt (seqs [.rep isJsSpace 1 none,
              altsRx ((["Apt", "Unit", "Suite", "Ste", "#"].map (fun w => ciLit (chars w)))),
              .opt (lit1 '.'), .rep isJsSpace 0 none, .rep isWordChar 1 none])

/-- `/\b\d{1,6}\s+(?:[A-Z][a-z]+\s+){1,3}(Street|…|Pl)(?:\s+(?:Apt|Unit|Suite|Ste|#)\.?\s*\w+)?\b/gi`.
The `{1,3}` group repetition is unrolled as `G(G(G)?)?`, which tries 3, 2, 1
copies in that order — the greedy order of `{1,3}`. -/
def addressRx : Rx :=
  seqs [.wb, .rep isDigitChar 1 (some 6), .rep isJsSpace 1 none,
        .seq addrNameGroup (.opt (.seq addrNameGroup (.opt addrNameGroup))),
        streetTypeRx, aptPartRx, .wb]

/-- `/\b(Mr|Ms|Mrs|Dr|Prof|Rev)\.?\s+[A-Z][a-z]+(?:\s+[A-Z]\.?)?(?:\s+[A-Z][a-z]+)?\b/g`. -/
def titleNameRx : Rx :=
  seqs [.wb,
        altsRx ((["Mr", "Ms", "Mrs", "Dr", "Prof", "Rev"].map (fun w => litRx (chars w)))),
        .opt (lit1 '.'), .rep isJsSpace 1 none,
        .cls Char.isUpper, .rep Char.isLower 1 none,
        .opt (seqs [.rep isJsSpace 1 none, .cls Char.isUpper, .opt (lit1 '.')]),
        .opt (seqs [.rep isJsSpace 1 none, .cls Char.isUpper, .rep Char.isLower 1 none]),
        .wb]

/-- The module-level `REDACTION_PATTERNS` catalog, in source order. -/
def REDACTION_PATTERNS : List RPattern :=
  [{ type := chars "SSN", regex := ssnRx, priority := 10, confidence := chars "high", validator := none },
   { type := chars "CREDIT_CARD", regex := creditCardRx, priority := 9, confidence := chars "high", validator := some luhnCheck },
   { type := chars "EMAIL", regex := emailRx, priority := 8, confidence := chars "high", validator := none },
   { type := chars "PHONE", regex := phoneRx, priority := 7, confidence := chars "high", validator := some validatePhone },
   { type := chars "DATE", regex := dateRx, priority := 6, confidence := chars "medium", validator := none },
   { type := chars "IP_ADDRESS", regex := ipRx, priority := 5, confidence := chars "high", validator := none },
   { type := chars "ADDRESS", regex := addressRx, priority := 4, confidence := chars "medium", validator := none },
   { type := chars "TITLE_NAME", regex := titleNameRx, priority := 3, confidence := chars "medium", validator := none }]

/-- Apply the optional validator (absent means accept, per
`pattern.validator && !pattern.validator(original)`). -/
def applyValidator (v : Option (List Char → Bool)) (s : List Char) : Bool :=
  match v with
  | none => true
  | some f => f s

/-- The `while ((match = pattern.regex.exec(text)) !== null)` loop of
`findMatches`, with the regex's mutable `lastIndex` made explicit: the second
component is the regex's `lastIndex` after the loop (JS sets it to 0 on the
final failing `exec`).  The fuel bound is unreachable for any pattern whose
regex consumes at least one character per match. -/
def findMatchesAux (pat : RPattern) (s : List Char) : Nat → Nat → List RMatch × Nat
  | 0, li => ([], li)
  | fuel + 1, li =>
    match regexExec pat.regex s li with
    | none => ([], 0)
    | some m =>
      let original := (s.drop m.1).take m.2
      let rec' := findMatchesAux pat s fuel (m.1 + m.2)
      if applyValidator pat.validator original then
        ({ type := pat.type, original := original, start := m.1, endPos := m.1 + m.2,
           confidence := pat.confidence, priority := pat.priority } :: rec'.1, rec'.2)
      else rec'

/-- `findMatches` started from `lastIndex = li`, returning the matches and the
regex's `lastIndex` afterwards. -/
def findMatchesS (pat : RPattern) (s : List Char) (li : Nat) : List RMatch × Nat :=
  findMatchesAux pat s (s.length + 2) li

/-- `findMatches` on a fresh (or reset) regex. -/
def findMatches (pat : RPattern) (s : List Char) : List RMatch :=
  (findMatchesS pat s 0).1

/-- Stable insertion: `x` goes before the first element not strictly preceding
it.  `lt y x` means the comparator orders `y` strictly before `x`. -/
def stableInsert (lt : α → α → Bool) (x : α) : List α → List α
  | [] => [x]
  | y :: ys => if lt y x then y :: stableInsert lt x ys else x :: y :: ys

/-- Stable sort (insertion sort), the behavior `Array.prototype.sort` is
specified to have for a consistent comparator. -/
def stableSort (lt : α → α → Bool) (l : List α) : List α := l.foldr (stableInsert lt) []

/-- The comparator `(a, b) => a.start - b.start || b.priority - a.priority` as
a strict precedence test. -/
def ltStartPriority (a b : RMatch) : Bool :=
  decide (a.start < b.start) || (a.start == b.start && decide (b.priority < a.priority))

/-- One merge of `next` into `current`: extend the end, and switch the label
and confidence when `next.priority > current.priority`.  Note the source never
updates `current.priority` after a label switch. -/
def mergeStep (current next : RMatch) : RMatch :=
  { current with
    endPos := max current.endPos next.endPos,
    type := if decide (current.priority < next.priority) then next.type else current.type,
    confidence := if decide (current.priority < next.priority) then next.confidence else current.confidence }

/-- The sweep of `mergeOverlaps`: merge while `next.start <= current.end`,
else close `current` and continue from `next`. -/
def mergeLoop (current : RMatch) : List RMatch → List RMatch
  | [] => [current]
  | next :: rest =>
    if decide (next.start ≤ current.endPos) then mergeLoop (mergeStep current next) rest
    else current :: mergeLoop next rest

/-- `mergeOverlaps` from `src/lib/redact.js`. -/
def mergeOverlaps (redactions : List RMatch) : List RMatch :=
  match stableSort ltStartPriority redactions with
  | [] => []
  | x :: xs => mergeLoop x xs

/-- JS-object association list: lookup (first occurrence of the key). -/
def objGet (m : List (List Char × α)) (k : List Char) : Option α :=
  match m with
  | [] => none
  | (k1, v) :: t => if k1 == k then some v else objGet t k

/-- JS-object association list: `m[k] = v` (update in place, or append a new
key in insertion order). -/
def objSet : List (List Char × α) → List Char → α → List (List Char × α)
  | [], k, v => [(k, v)]
  | (k1, v1) :: t, k, v => if k1 == k then (k, v) :: t else (k1, v1) :: objSet t k v

/-- Decimal rendering of a counter, as in the template literals of the source. -/
def natChars (n : Nat) : List Char := (Nat.repr n).toList

/-- A final redaction record `{ id, type, original, start, end, confidence }`. -/
structure Redaction where
  id : List Char
  type : List Char
  original : List Char
  start : Nat
  endPos : Nat
  confidence : List Char
deriving DecidableEq, Repr

/-- The `mergedMatches.map(...)` pass of `redactText`: assigns per-type
1-based counters and ids `` `${type}#${count}` ``, returning the records and
the final `typeCounts` object. -/
def buildRedactions : List RMatch → List (List Char × Nat) → List Redaction × List (List Char × Nat)
  | [], tc => ([], tc)
  | m :: rest, tc =>
    let n := (objGet tc m.type).getD 0 + 1
    let tc1 := objSet tc m.type n
    let rec' := buildRedactions rest tc1
    ({ id := m.type ++ '#' :: natChars n, type := m.type, original := m.original,
       start := m.start, endPos := m.endPos, confidence := m.confidence } :: rec'.1, rec'.2)

/-- The literal placeholder `"[REDACTED:" + id + "]"`. -/
def placeholderOf (id : List Char) : List Char := chars "[REDACTED:" ++ id ++ [']']

/-- The back-to-front rewrite loop of `redactText`: for `i` from last to
first, `redactedText = slice(0, start) + placeholder + slice(end)`. -/
def applyRedactions (redactions : List Redaction) (text : List Char) : List Char :=
  redactions.foldr
    (fun r acc => acc.take r.start ++ placeholderOf r.id ++ acc.drop r.endPos) text

/-- The summary object: lower-cased per-type counts in `typeCounts` insertion
order, then the `totalRedactions` key. -/
def lowerStr (s : List Char) : List Char := s.map Char.toLower

/-- Build the summary from the final `typeCounts` and the redaction count. -/
def buildSummary (tc : List (List Char × Nat)) (total : Nat) : List (List Char × Nat) :=
  objSet (tc.foldl (fun acc kv => objSet acc (lowerStr kv.1) kv.2) []) (chars "totalRedactions") total

/-- Result shape of `redactText`. -/
structure RedactResult where
  redactedText : List Char
  redactions : List Redaction
  summary : List (List Char × Nat)
deriving DecidableEq, Repr

/-- The `{ redactedText: '', redactions: [], summary: {} }` early return. -/
def emptyRedactResult : RedactResult :=
  { redactedText := [], redactions := [], summary := [] }

/-- Options of `redactText`.  The source destructures `redactPII`, `redactPHI`
and `customPatterns` (with these defaults) from the options object. -/
structure RedactOptions where
  redactPII : Bool := true
  redactPHI : Bool := true
  customPatterns : List RPattern := []

/-- The module-load state of the catalog's regexes: one `lastIndex`, initially
0, per pattern of `REDACTION_PATTERNS`. -/
def initRedactState : List Nat := [0, 0, 0, 0, 0, 0, 0, 0]

/-- The body of `redactText` past the guard, with the catalog regexes'
`lastIndex` state `σ` explicit.  Caller-supplied custom patterns are modelled
as fresh regex objects (`lastIndex = 0`). -/
def redactCore (σ : List Nat) (s : List Char) (options : RedactOptions) : RedactResult × List Nat :=
  let builtinRuns := List.zipWith (fun p li => findMatchesS p s li) REDACTION_PATTERNS σ
  let allMatches := (builtinRuns.map Prod.fst).flatten ++
    (options.customPatterns.map (fun p => findMatches p s)).flatten
  let σ2 := builtinRuns.map Prod.snd
  let mergedMatches := mergeOverlaps allMatches
  let built := buildRedactions mergedMatches []
  ({ redactedText := applyRedactions built.1 s,
     redactions := built.1,
     summary := buildSummary built.2 built.1.length }, σ2)

/-- `redactText` with the module state explicit.  `none` models a null or
non-string argument; the `!text` guard also catches the empty string. -/
def redactTextS (σ : List Nat) (text : Option (List Char)) (options : RedactOptions) : RedactResult × List Nat :=
  match text with
  | none => (emptyRedactResult, σ)
  | some s => if s.isEmpty then (emptyRedactResult, σ) else redactCore σ s options

/-- `redactText` as called on the module in its (always-restored) initial
state. -/
def redactText (text : Option (List Char)) (options : RedactOptions) : RedactResult :=
  (redactTextS initRedactState text options).1

/-- JS `String.prototype.replace` with a string pattern: replace the first
occurrence (or return the string unchanged). -/
def replaceFirst (pat repl : List Char) : List Char → List Char
  | [] => if pat.isEmpty then repl else []
  | c :: t =>
    if pat.isPrefixOf (c :: t) then repl ++ (c :: t).drop pat.length
    else c :: replaceFirst pat repl t

/-- `restoreText` from `src/lib/redact.js`: sort a copy by start descending,
then replace each placeholder literal by the stored original. -/
def restoreText (redactedText : List Char) (redactions : List Redaction) : List Char :=
  (stableSort (fun a b => decide (b.start < a.start)) redactions).foldl
    (fun acc r => replaceFirst (placeholderOf r.id) r.original acc) redactedText

/-- `addCustomPattern` from `src/lib/redact.js`. -/
def addCustomPattern (type : List Char) (regex : Rx) (priority : Option Nat)
    (confidence : Option (List Char)) (validator : Option (List Char → Bool)) : RPattern :=
  { type := type, regex := regex, priority := priority.getD 1,
    confidence := confidence.getD (chars "low"), validator := validator }

/-! The flagging engine (`src/lib/flagging.js`). -/

/-- A proximity rule `{ words, distance }`. -/
structure ProximityRule where
  words : List (List Char)
  distance : Nat

/-- A flag-pattern record `{ keywords, proximityPatterns, severity, excerptLength }`. -/
structure FlagPattern where
  keywords : List (List Char)
  proximityPatterns : List ProximityRule
  severity : List Char
  excerptLength : Nat

/-- The module-level `FLAG_PATTERNS` object, in insertion (= iteration) order. -/
def FLAG_PATTERNS : List (List Char × FlagPattern) :=
  [(chars "PRIVILEGE",
    { keywords := ["attorney-client", "attorney client", "legal advice", "privileged",
                   "work product", "opinion of counsel", "confidential legal",
                   "counsel advised", "legal counsel"].map chars,
      proximityPatterns :=
        [{ words := [chars "attorney", chars "advice"], distance := 5 },
         { words := [chars "counsel", chars "opinion"], distance := 5 },
         { words := [chars "lawyer", chars "privileged"], distance := 5 },
         { words := [chars "legal", chars "privileged"], distance := 3 }],
      severity := chars "HIGH", excerptLength := 100 }),
   (chars "PHI",
    { keywords := ["diagnosis", "treatment", "medical history", "patient", "HIV", "AIDS",
                   "psychiatric", "mental health", "prescription", "medication", "surgery",
                   "hospitalization", "medical condition", "health information",
                   "HIPAA"].map chars,
      proximityPatterns :=
        [{ words := [chars "patient", chars "diagnosed"], distance := 5 },
         { words := [chars "medical", chars "condition"], distance := 3 },
         { words := [chars "health", chars "records"], distance := 3 }],
      severity := chars "HIGH", excerptLength := 100 }),
   (chars "CONFIDENTIALITY",
    { keywords := ["confidential", "proprietary", "trade secret", "non-disclosure", "NDA",
                   "confidentiality agreement", "secret information",
                   "proprietary information"].map chars,
      proximityPatterns :=
        [{ words := [chars "confidential", chars "information"], distance := 3 },
         { words := [chars "trade", chars "secret"], distance := 2 }],
      severity := chars "MEDIUM", excerptLength := 80 }),
   (chars "FINANCIAL_SENSITIVE",
    { keywords := ["bank account", "routing number", "account number", "financial records",
                   "tax return", "W-2", "1099", "salary", "compensation details"].map chars,
      proximityPatterns :=
        [{ words := [chars "bank", chars "account"], distance := 2 },
         { words := [chars "financial", chars "information"], distance := 3 }],
      severity := chars "HIGH", excerptLength := 80 })]

/-- A raw flag candidate `{ type, position, matchedText, reason, severity, excerpt }`. -/
structure FlagCandidate where
  type : List Char
  position : Nat
  matchedText : List Char
  reason : List Char
  severity : List Char
  excerpt : List Char
deriving DecidableEq, Repr

/-- A final flag record `{ id, type, excerpt, start, end, reason, severity }`
(source field `end` spelled `endPos`). -/
structure Flag where
  id : List Char
  type : List Char
  excerpt : List Char
  start : Nat
  endPos : Nat
  reason : List Char
  severity : List Char
deriving DecidableEq, Repr

/-- JS `String.prototype.trim`. -/
def jsTrim (s : List Char) : List Char :=
  ((s.dropWhile isJsSpace).reverse.dropWhile isJsSpace).reverse

/-- `extractExcerpt` from `src/lib/flagging.js`: a trimmed window of
`length` characters centred at `position`, with ellipses where truncated
(`Math.max(0, …)` is `Nat` truncated subtraction). -/
def extractExcerpt (text : List Char) (position : Nat) (length : Nat) : List Char :=
  let halfLength := length / 2
  let start := position - halfLength
  let stop := min text.length (position + halfLength)
  let excerpt := jsTrim ((text.drop start).take (stop - start))
  let excerpt := if decide (0 < start) then chars "..." ++ excerpt else excerpt
  if decide (stop < text.length) then excerpt ++ chars "..." else excerpt

/-- `` new RegExp(`\\b${word}\\b`, 'gi') `` for the literal keywords and
proximity words of the catalog (none contains a regex metacharacter). -/
def wbLit (w : List Char) : Rx := seqs [.wb, litRx w, .wb]

/-- `findKeywordMatches` from `src/lib/flagging.js`: for each keyword in
order, every word-boundary occurrence over the lower-cased text. -/
def findKeywordMatches (text : List Char) (pattern : FlagPattern) (type : List Char) : List FlagCandidate :=
  let lowerText := lowerStr text
  pattern.keywords.flatMap (fun kw =>
    (rxScanAll (wbLit (lowerStr kw)) lowerText).map (fun m =>
      { type := type, position := m.1, matchedText := kw,
        reason := chars "Contains keyword: \"" ++ kw ++ ['"'],
        severity := pattern.severity,
        excerpt := extractExcerpt text m.1 pattern.excerptLength }))

/-- Absolute difference (`Math.abs(a - b)` on numbers that are array
indices). -/
def absDiff (a b : Nat) : Nat := max a b - min a b

/-- The inner pair loops of `checkProximity`, first hit wins, in order. -/
def pairSearch (ps1 ps2 : List Nat) (limit : Nat) : Option Nat :=
  firstSome (fun p1 =>
    firstSome (fun p2 => if decide (absDiff p2 p1 ≤ limit) then some (min p1 p2) else none) ps2) ps1

/-- The adjacent-pair sweep of `checkProximity` over the per-word position
lists. -/
def proxSearch : List (List Nat) → Nat → Option Nat
  | [], _ => none
  | [_], _ => none
  | ps1 :: ps2 :: rest, limit =>
    match pairSearch ps1 ps2 limit with
    | some pos => some pos
    | none => proxSearch (ps2 :: rest) limit

/-- `checkProximity` from `src/lib/flagging.js`: word occurrences over the
lower-cased text, a hit when a pair is within `distance * 6` characters; the
reported position is the smaller of the two offsets (`none` = `found: false`). -/
def checkProximity (text : List Char) (words : List (List Char)) (distance : Nat) : Option Nat :=
  let lowerText := lowerStr text
  let positions := words.map (fun w => (rxScanAll (wbLit (lowerStr w)) lowerText).map Prod.fst)
  proxSearch positions (distance * 6)

/-- `', '`-style joins of the reason templates. -/
def joinSep (sep : List Char) : List (List Char) → List Char
  | [] => []
  | [x] => x
  | x :: y :: rest => x ++ sep ++ joinSep sep (y :: rest)

/-- `findProximityMatches` from `src/lib/flagging.js`. -/
def findProximityMatches (text : List Char) (pattern : FlagPattern) (type : List Char) : List FlagCandidate :=
  pattern.proximityPatterns.flatMap (fun rule =>
    match checkProximity text rule.words rule.distance with
    | none => []
    | some pos =>
      [{ type := type, position := pos, matchedText := joinSep (chars " + ") rule.words,
         reason := chars "Contains related terms: " ++ joinSep (chars ", ") rule.words ++
                   chars " within " ++ natChars rule.distance ++ chars " words",
         severity := pattern.severity,
         excerpt := extractExcerpt text pos pattern.excerptLength }])

/-- One entry of the `riskyPatterns` table of `detectRiskyClauses`. -/
structure RiskyPattern where
  regex : Rx
  type : List Char
  reason : List Char
  severity : List Char

/-- `\s+` once, for the risky-clause regexes. -/
def sp1 : Rx := .rep isJsSpace 1 none

/-- The `riskyPatterns` table of `detectRiskyClauses`, in source order
(all `gi` regexes, created fresh on every call). -/
def riskyPatterns : List RiskyPattern :=
  [{ regex := seqs [ciLit (chars "unlimited"), sp1, ciLit (chars "liability")],
     type := chars "RISKY_CLAUSE", reason := chars "Unlimited liability clause detected",
     severity := chars "HIGH" },
   { regex := seqs [ciLit (chars "waive"), sp1, ciLit (chars "all"), sp1, ciLit (chars "rights")],
     type := chars "RISKY_CLAUSE", reason := chars "Rights waiver clause detected",
     severity := chars "HIGH" },
   { regex := seqs [ciLit (chars "no"), sp1, ciLit (chars "warranty")],
     type := chars "RISKY_CLAUSE", reason := chars "No warranty clause detected",
     severity := chars "MEDIUM" },
   { regex := seqs [ciLit (chars "as"), sp1, ciLit (chars "is"), sp1, ciLit (chars "basis")],
     type := chars "RISKY_CLAUSE", reason := chars "\"As is\" basis clause detected",
     severity := chars "MEDIUM" },
   { regex := seqs [ciLit (chars "indemnif"), .alt (ci1 'y') (ciLit (chars "ication"))],
     type := chars "INDEMNIFICATION", reason := chars "Indemnification clause detected",
     severity := chars "MEDIUM" }]

/-- `detectRiskyClauses` from `src/lib/flagging.js`. -/
def detectRiskyClauses (text : List Char) : List FlagCandidate :=
  riskyPatterns.flatMap (fun p =>
    (rxScanAll p.regex text).map (fun m =>
      { type := p.type, position := m.1, matchedText := (text.drop m.1).take m.2,
        reason := p.reason, severity := p.severity,
        excerpt := extractExcerpt text m.1 80 }))

/-- JS `String.prototype.includes`. -/
def listIncludes (needle : List Char) : List Char → Bool
  | [] => needle.isEmpty
  | c :: t => needle.isPrefixOf (c :: t) || listIncludes needle t

/-- The sweep of `mergeDuplicateFlags`: merge same-category candidates whose
positions are within 50 characters, concatenating reasons unless the new
reason is already a substring of the accumulated one. -/
def mergeDupLoop (current : FlagCandidate) : List FlagCandidate → List FlagCandidate
  | [] => [current]
  | next :: rest =>
    if next.type == current.type && decide (absDiff next.position current.position ≤ 50) then
      mergeDupLoop
        (if listIncludes next.reason current.reason then current
         else { current with reason := current.reason ++ chars "; " ++ next.reason })
        rest
    else current :: mergeDupLoop next rest

/-- `mergeDuplicateFlags` from `src/lib/flagging.js` (`mergeDistance = 50`). -/
def mergeDuplicateFlags (flags : List FlagCandidate) : List FlagCandidate :=
  match stableSort (fun a b => decide (a.position < b.position)) flags with
  | [] => []
  | x :: xs => mergeDupLoop x xs

/-- Options of `flagSensitiveContent`, with the source defaults. -/
structure FlagOptions where
  flagPrivilege : Bool := true
  flagPHI : Bool := true
  flagConfidentiality : Bool := true
  flagRiskyTerms : Bool := true

/-- Values of the flagging summary object (counts and the risk-level string). -/
inductive JVal where
  | num (n : Nat) : JVal
  | str (s : List Char) : JVal
deriving DecidableEq, Repr

/-- Result shape of `flagSensitiveContent`. -/
structure FlagResult where
  flags : List Flag
  summary : List (List Char × JVal)
deriving DecidableEq, Repr

/-- The `{ flags: [], summary: {} }` early return. -/
def emptyFlagResult : FlagResult := { flags := [], summary := [] }

/-- The per-category skip tests of the main loop (`FINANCIAL_SENSITIVE` has no
gate). -/
def categoryActive (type : List Char) (o : FlagOptions) : Bool :=
  if type == chars "PRIVILEGE" then o.flagPrivilege
  else if type == chars "PHI" then o.flagPHI
  else if type == chars "CONFIDENTIALITY" then o.flagConfidentiality
  else true

/-- `summary[flag.type] || 0` over the mixed-valued summary object. -/
def jNumGet (m : List (List Char × JVal)) (k : List Char) : Nat :=
  match objGet m k with
  | some (JVal.num n) => n
  | _ => 0

/-- Count of `HIGH`-severity flags (`flags.filter(f => f.severity === 'HIGH').length`). -/
def highCount (flags : List Flag) : Nat :=
  (flags.filter (fun f => f.severity == chars "HIGH")).length

/-- The risk-level ternary of `flagSensitiveContent`. -/
def riskWord (n : Nat) : List Char :=
  if 3 < n then chars "HIGH" else if 0 < n then chars "MEDIUM" else chars "LOW"

/-- The body of `flagSensitiveContent` past the guard. -/
def flagCore (s : List Char) (options : FlagOptions) : FlagResult :=
  let catFlags := FLAG_PATTERNS.flatMap (fun tp =>
    if categoryActive tp.1 options then
      findKeywordMatches s tp.2 tp.1 ++ findProximityMatches s tp.2 tp.1
    else [])
  let allFlags := catFlags ++ (if options.flagRiskyTerms then detectRiskyClauses s else [])
  let mergedFlags := mergeDuplicateFlags allFlags
  let flags := mergedFlags.enum.map (fun iv =>
    { id := 'F' :: natChars (iv.1 + 1), type := iv.2.type, excerpt := iv.2.excerpt,
      start := iv.2.position, endPos := iv.2.position + iv.2.matchedText.length,
      reason := iv.2.reason, severity := iv.2.severity })
  let counts := flags.foldl (fun acc f => objSet acc f.type (JVal.num (jNumGet acc f.type + 1))) []
  let sum1 := objSet counts (chars "total") (JVal.num flags.length)
  let hc := highCount flags
  let sum2 := objSet sum1 (chars "highSeverity") (JVal.num hc)
  let sum3 := objSet sum2 (chars "riskLevel") (JVal.str (riskWord hc))
  { flags := flags, summary := sum3 }

/-- `flagSensitiveContent` from `src/lib/flagging.js`; `none` models a null or
non-string argument, and the `!text` guard also catches the empty string. -/
def flagSensitiveContent (text : Option (List Char)) (options : FlagOptions) : FlagResult :=
  match text with
  | none => emptyFlagResult
  | some s => if s.isEmpty then emptyFlagResult else flagCore s options

/-! Auxiliary definitions used by the statements of the theorems below. -/

/-- The category tags of the built-in redaction catalog. -/
def builtinTypes : List (List Char) := REDACTION_PATTERNS.map RPattern.type

/-- Sum of the (numeric) values of a summary object. -/
def sumVals (m : List (List Char × Nat)) : Nat := (m.map Prod.snd).sum

/-- The keys of an association-list object, in order. -/
def keysOf (m : List (List Char × α)) : List (List Char) := m.map Prod.fst

/-- Sum of the per-category counts of a redaction summary (all entries except
the `totalRedactions` key). -/
def sumCategoryCounts (m : List (List Char × Nat)) : Nat :=
  ((m.filter (fun kv => !(kv.1 == chars "totalRedactions"))).map Prod.snd).sum

/-- Reference Luhn sum, stated positionally: over the digits right-to-left,
every second digit (odd 0-based position from the right) is doubled with 9
subtracted when the result exceeds 9. -/
def luhnSumSpec (ds : List Nat) : Nat :=
  ((ds.reverse.enum).map (fun p => if p.1 % 2 = 1 then double9 p.2 else p.2)).sum

/-- Concrete flag candidates used to witness the flag-merge theorem. -/
def wFlagA : FlagCandidate :=
  { type := chars "PRIVILEGE", position := 0, matchedText := chars "privileged",
    reason := chars "Contains keyword: \"privileged\"", severity := chars "HIGH",
    excerpt := chars "privileged" }

/-- A second candidate of the same category 30 characters away. -/
def wFlagB : FlagCandidate :=
  { type := chars "PRIVILEGE", position := 30, matchedText := chars "legal advice",
    reason := chars "Contains keyword: \"legal advice\"", severity := chars "HIGH",
    excerpt := chars "legal advice" }

/-- A candidate of a different category at the same position as `wFlagA`. -/
def wFlagC : FlagCandidate :=
  { type := chars "PHI", position := 0, matchedText := chars "patient",
    reason := chars "Contains keyword: \"patient\"", severity := chars "HIGH",
    excerpt := chars "patient" }

/-! Lemmas about the matcher. -/

theorem memDropTake {α : Type} {x : α} :
    ∀ {l : List α} {n m : Nat}, x ∈ (l.take n).drop m → x ∈ l.drop m := by
  intro l
  induction l with
  | nil => intro n m h; simp at h
  | cons a t ih =>
    intro n m h
    cases n with
    | zero => simp [List.take] at h
    | succ n =>
      cases m with
      | zero =>
        simp only [List.drop_zero, List.take_succ_cons] at h ⊢
        rcases List.mem_cons.mp h with h | h
        · exact h ▸ List.mem_cons_self a t
        · exact List.mem_cons_of_mem a (List.mem_of_mem_take h)
      | succ m =>
        simp only [List.take_succ_cons, List.drop_succ_cons] at h ⊢
        exact ih h

theorem runStates_drop_mem (p : Char → Bool) :
    ∀ (rest : List Char) (prev : Option Char) (lo : Nat) (x : Option Char × List Char),
      x ∈ (runStates p prev rest).drop lo → x.2 <:+ rest ∧ x.2.length + lo ≤ rest.length := by
  intro rest
  induction rest with
  | nil =>
    intro prev lo x h
    cases lo with
    | zero =>
      simp only [runStates, List.drop_zero, List.mem_singleton] at h
      subst h
      exact ⟨List.suffix_refl _, by simp⟩
    | succ lo => simp [runStates] at h
  | cons c t ih =>
    intro prev lo x h
    cases lo with
    | zero =>
      rw [List.drop_zero, runStates] at h
      rcases List.mem_cons.mp h with h | h
      · subst h
        exact ⟨List.suffix_refl _, by simp⟩
      · by_cases hp : p c = true
        · rw [if_pos hp] at h
          have hx := ih (some c) 0 x (by simpa using h)
          have h2 := hx.2
          exact ⟨hx.1.trans (List.suffix_cons c t), by simp only [List.length_cons]; omega⟩
        · rw [if_neg hp] at h
          simp at h
    | succ lo =>
      rw [runStates, List.drop_succ_cons] at h
      by_cases hp : p c = true
      · rw [if_pos hp] at h
        have hx := ih (some c) lo x h
        have h2 := hx.2
        exact ⟨hx.1.trans (List.suffix_cons c t), by simp only [List.length_cons]; omega⟩
      · rw [if_neg hp] at h
        simp at h

theorem firstSome_eq_some {α β : Type} {f : α → Option β} :
    ∀ {l : List α} {v : β}, firstSome f l = some v → ∃ x ∈ l, f x = some v := by
  intro l
  induction l with
  | nil => intro v h; simp [firstSome] at h
  | cons x xs ih =>
    intro v h
    rw [firstSome] at h
    cases hx : f x with
    | some w =>
      rw [hx] at h
      exact ⟨x, List.mem_cons_self x xs, hx.trans h⟩
    | none =>
      rw [hx] at h
      obtain ⟨y, hy, hfy⟩ := ih h
      exact ⟨y, List.mem_cons_of_mem x hy, hfy⟩

theorem mtch_sound :
    ∀ (r : Rx) (prev : Option Char) (rest : List Char)
      (k : Option Char → List Char → Option (List Char)) (v : List Char),
      mtch r prev rest k = some v →
      ∃ p2 t, t <:+ rest ∧ k p2 t = some v ∧
        (rxConsumes r = true → t.length < rest.length) := by
  intro r
  induction r with
  | eps =>
    intro prev rest k v h
    rw [mtch] at h
    exact ⟨prev, rest, List.suffix_refl _, h, by simp [rxConsumes]⟩
  | cls p =>
    intro prev rest k v h
    cases rest with
    | nil => rw [mtch] at h; cases h
    | cons c t =>
      rw [mtch] at h
      by_cases hp : p c = true
      · rw [if_pos hp] at h
        exact ⟨some c, t, List.suffix_cons c t, h, fun _ => by simp⟩
      · rw [if_neg hp] at h
        cases h
  | seq a b iha ihb =>
    intro prev rest k v h
    rw [mtch] at h
    obtain ⟨p1, t1, hs1, hk1, hc1⟩ := iha prev rest _ v h
    obtain ⟨p2, t2, hs2, hk2, hc2⟩ := ihb p1 t1 k v hk1
    refine ⟨p2, t2, hs2.trans hs1, hk2, ?_⟩
    intro hcons
    simp only [rxConsumes, Bool.or_eq_true] at hcons
    rcases hcons with hA | hB
    · exact lt_of_le_of_lt hs2.length_le (hc1 hA)
    · exact lt_of_lt_of_le (hc2 hB) hs1.length_le
  | alt a b iha ihb =>
    intro prev rest k v h
    rw [mtch] at h
    cases hA : mtch a prev rest k with
    | some w =>
      rw [hA] at h
      obtain ⟨p2, t, hs, hk, hc⟩ := iha prev rest k w hA
      obtain rfl : w = v := Option.some.inj h
      refine ⟨p2, t, hs, hk, fun hcons => hc ?_⟩
      simp only [rxConsumes, Bool.and_eq_true] at hcons
      exact hcons.1
    | none =>
      rw [hA] at h
      obtain ⟨p2, t, hs, hk, hc⟩ := ihb prev rest k v h
      refine ⟨p2, t, hs, hk, fun hcons => hc ?_⟩
      simp only [rxConsumes, Bool.and_eq_true] at hcons
      exact hcons.2
  | opt a iha =>
    intro prev rest k v h
    rw [mtch] at h
    cases hA : mtch a prev rest k with
    | some w =>
      rw [hA] at h
      obtain ⟨p2, t, hs, hk, _⟩ := iha prev rest k w hA
      obtain rfl : w = v := Option.some.inj h
      exact ⟨p2, t, hs, hk, fun hcons => absurd hcons (by simp [rxConsumes])⟩
    | none =>
      rw [hA] at h
      exact ⟨prev, rest, List.suffix_refl _, h, fun hcons => absurd hcons (by simp [rxConsumes])⟩
  | rep p lo hi =>
    intro prev rest k v h
    have h2 : firstSome (fun st => k st.1 st.2)
        ((((match hi with
            | some hcap => (runStates p prev rest).take (hcap + 1)
            | none => runStates p prev rest)).drop lo).reverse) = some v := h
    obtain ⟨x, hx, hk⟩ := firstSome_eq_some h2
    rw [List.mem_reverse] at hx
    have hx2 : x ∈ (runStates p prev rest).drop lo := by
      cases hi with
      | none => exact hx
      | some hcap => exact memDropTake hx
    have hprops := runStates_drop_mem p rest prev lo x hx2
    refine ⟨x.1, x.2, hprops.1, hk, ?_⟩
    intro hcons
    simp only [rxConsumes, decide_eq_true_eq] at hcons
    have h2 := hprops.2
    omega
  | wb =>
    intro prev rest k v h
    have h2 : (if bndLeft prev != bndRight rest then k prev rest else none) = some v := h
    split at h2
    · exact ⟨prev, rest, List.suffix_refl _, h2, fun hcons => absurd hcons (by simp [rxConsumes])⟩
    · cases h2

theorem matchAt_sound {r : Rx} {prev : Option Char} {rest t : List Char}
    (h : matchAt r prev rest = some t) :
    t <:+ rest ∧ (rxConsumes r = true → t.length < rest.length) := by
  obtain ⟨p2, t2, hs, hk, hc⟩ := mtch_sound r prev rest _ t h
  obtain rfl : t2 = t := Option.some.inj hk
  exact ⟨hs, hc⟩

theorem execScan_sound (r : Rx) :
    ∀ (rest : List Char) (prev : Option Char) (i j len : Nat),
      execScan r prev rest i = some (j, len) →
      i ≤ j ∧ j + len ≤ i + rest.length ∧ (rxConsumes r = true → 1 ≤ len) := by
  intro rest
  induction rest with
  | nil =>
    intro prev i j len h
    rw [execScan] at h
    cases hm : matchAt r prev [] with
    | none => rw [hm] at h; cases h
    | some t =>
      rw [hm] at h
      have h2 := Option.some.inj h
      rw [Prod.mk.injEq] at h2
      obtain ⟨rfl, rfl⟩ := h2
      have hp := matchAt_sound hm
      refine ⟨Nat.le_refl _, by simp, ?_⟩
      intro hc
      have := hp.2 hc
      simp at this
  | cons c tl ih =>
    intro prev i j len h
    rw [execScan] at h
    cases hm : matchAt r prev (c :: tl) with
    | some t =>
      rw [hm] at h
      have h2 := Option.some.inj h
      rw [Prod.mk.injEq] at h2
      obtain ⟨rfl, rfl⟩ := h2
      have hp := matchAt_sound hm
      have hle := hp.1.length_le
      refine ⟨Nat.le_refl _, by omega, ?_⟩
      intro hc
      have := hp.2 hc
      omega
    | none =>
      rw [hm] at h
      have := ih (some c) (i + 1) j len h
      have h1 := this.1
      have h2 := this.2.1
      exact ⟨by omega, by simp only [List.length_cons]; omega, this.2.2⟩

theorem regexExec_sound {r : Rx} {s : List Char} {li j len : Nat}
    (h : regexExec r s li = some (j, len)) :
    li ≤ j ∧ j + len ≤ s.length ∧ (rxConsumes r = true → 1 ≤ len) := by
  rw [regexExec] at h
  by_cases hle : s.length < li
  · rw [if_pos hle] at h; cases h
  · rw [if_neg hle] at h
    have hs := execScan_sound r (s.drop li) ((s.take li).getLast?) li j len h
    have hlen : (s.drop li).length = s.length - li := List.length_drop li s
    have h2 := hs.2.1
    rw [hlen] at h2
    exact ⟨hs.1, by omega, hs.2.2⟩

theorem findMatchesAux_snd {pat : RPattern} {s : List Char}
    (hc : rxConsumes pat.regex = true) :
    ∀ (fuel li : Nat), li ≤ s.length → s.length + 1 ≤ fuel + li →
      (findMatchesAux pat s fuel li).2 = 0 := by
  intro fuel
  induction fuel with
  | zero => intro li h1 h2; omega
  | succ fuel ih =>
    intro li h1 h2
    rw [findMatchesAux]
    cases hm : regexExec pat.regex s li with
    | none => simp
    | some m =>
      obtain ⟨m1, m2⟩ := m
      have hs := regexExec_sound hm
      have hlen := hs.2.2 hc
      have h1' := hs.1
      have h2' := hs.2.1
      have hrec := ih (m1 + m2) (by omega) (by omega)
      simp only []
      split
      · simpa using hrec
      · exact hrec

theorem findMatchesS_snd {pat : RPattern} {s : List Char}
    (hc : rxConsumes pat.regex = true) :
    (findMatchesS pat s 0).2 = 0 :=
  findMatchesAux_snd hc (s.length + 2) 0 (Nat.zero_le _) (by omega)

theorem findMatchesAux_mem {pat : RPattern} {s : List Char} :
    ∀ (fuel li : Nat) (m : RMatch), m ∈ (findMatchesAux pat s fuel li).1 →
      m.start ≤ m.endPos ∧ m.type = pat.type := by
  intro fuel
  induction fuel with
  | zero => intro li m h; simp [findMatchesAux] at h
  | succ fuel ih =>
    intro li m h
    rw [findMatchesAux] at h
    cases hm : regexExec pat.regex s li with
    | none => rw [hm] at h; simp at h
    | some mm =>
      rw [hm] at h
      simp only [] at h
      split at h
      · rcases List.mem_cons.mp h with h | h
        · subst h
          exact ⟨Nat.le_add_right _ _, rfl⟩
        · exact ih (mm.1 + mm.2) m h
      · exact ih (mm.1 + mm.2) m h

theorem zipWith_mem {α β γ : Type} {f : α → β → γ} :
    ∀ (l1 : List α) (l2 : List β) (c : γ), c ∈ List.zipWith f l1 l2 →
      ∃ a ∈ l1, ∃ b ∈ l2, c = f a b := by
  intro l1
  induction l1 with
  | nil => intro l2 c h; simp at h
  | cons a t ih =>
    intro l2 c h
    cases l2 with
    | nil => simp at h
    | cons b t2 =>
      rw [List.zipWith_cons_cons] at h
      rcases List.mem_cons.mp h with h | h
      · exact ⟨a, List.mem_cons_self a t, b, List.mem_cons_self b t2, h⟩
      · obtain ⟨x, hx, y, hy, hc⟩ := ih t2 c h
        exact ⟨x, List.mem_cons_of_mem a hx, y, List.mem_cons_of_mem b hy, hc⟩

/-! Lemmas about the conflict resolvers. -/

theorem stableInsert_perm (lt : α → α → Bool) (x : α) :
    ∀ l : List α, (stableInsert lt x l).Perm (x :: l) := by
  intro l
  induction l with
  | nil => simp [stableInsert]
  | cons y ys ih =>
    rw [stableInsert]
    by_cases hlt : lt y x = true
    · rw [if_pos hlt]
      exact (ih.cons y).trans (List.Perm.swap x y ys)
    · rw [if_neg hlt]

theorem stableSort_perm (lt : α → α → Bool) :
    ∀ l : List α, (stableSort lt l).Perm l := by
  intro l
  induction l with
  | nil => simp [stableSort]
  | cons x xs ih =>
    have : stableSort lt (x :: xs) = stableInsert lt x (stableSort lt xs) := rfl
    rw [this]
    exact (stableInsert_perm lt x (stableSort lt xs)).trans (ih.cons x)

theorem mergeLoop_mem_start :
    ∀ (rest : List RMatch) (current : RMatch),
      current.start ≤ current.endPos → (∀ x ∈ rest, x.start ≤ x.endPos) →
      ∀ m ∈ mergeLoop current rest, current.start ≤ m.start ∧ m.start ≤ m.endPos := by
  intro rest
  induction rest with
  | nil =>
    intro current hcur _ m hm
    rw [mergeLoop, List.mem_singleton] at hm
    subst hm
    exact ⟨Nat.le_refl _, hcur⟩
  | cons next rest ih =>
    intro current hcur hrest m hm
    rw [mergeLoop] at hm
    split at hm
    · have hcur2 : (mergeStep current next).start ≤ (mergeStep current next).endPos := by
        show current.start ≤ max current.endPos next.endPos
        exact le_trans hcur (le_max_left _ _)
      exact ih (mergeStep current next) hcur2
        (fun x hx => hrest x (List.mem_cons_of_mem next hx)) m hm
    · rename_i hpush
      have hlt : ¬ (next.start ≤ current.endPos) := by simpa using hpush
      rcases List.mem_cons.mp hm with hm | hm
      · subst hm
        exact ⟨Nat.le_refl _, hcur⟩
      · have hnext : next.start ≤ next.endPos := hrest next (List.mem_cons_self next rest)
        have := ih next hnext (fun x hx => hrest x (List.mem_cons_of_mem next hx)) m hm
        exact ⟨by omega, this.2⟩

theorem mergeLoop_pairwise :
    ∀ (rest : List RMatch) (current : RMatch),
      current.start ≤ current.endPos → (∀ x ∈ rest, x.start ≤ x.endPos) →
      (mergeLoop current rest).Pairwise
        (fun a b => a.endPos < b.start ∧ a.start < b.start) := by
  intro rest
  induction rest with
  | nil =>
    intro current _ _
    rw [mergeLoop]
    exact List.pairwise_singleton _ _
  | cons next rest ih =>
    intro current hcur hrest
    rw [mergeLoop]
    split
    · have hcur2 : (mergeStep current next).start ≤ (mergeStep current next).endPos := by
        show current.start ≤ max current.endPos next.endPos
        exact le_trans hcur (le_max_left _ _)
      exact ih (mergeStep current next) hcur2 (fun x hx => hrest x (List.mem_cons_of_mem next hx))
    · rename_i hpush
      have hlt : ¬ (next.start ≤ current.endPos) := by simpa using hpush
      have hnext : next.start ≤ next.endPos := hrest next (List.mem_cons_self next rest)
      refine List.Pairwise.cons ?_ (ih next hnext (fun x hx => hrest x (List.mem_cons_of_mem next hx)))
      intro m hm
      have := mergeLoop_mem_start rest next hnext
        (fun x hx => hrest x (List.mem_cons_of_mem next hx)) m hm
      constructor
      · omega
      · omega

theorem mergeOverlaps_pairwise {l : List RMatch}
    (h : ∀ x ∈ l, x.start ≤ x.endPos) :
    (mergeOverlaps l).Pairwise (fun a b => a.endPos < b.start ∧ a.start < b.start) := by
  rw [mergeOverlaps]
  cases hs : stableSort ltStartPriority l with
  | nil => exact List.Pairwise.nil
  | cons x xs =>
    have hmem : ∀ y ∈ x :: xs, y.start ≤ y.endPos := by
      intro y hy
      refine h y ?_
      have hperm := stableSort_perm ltStartPriority l
      rw [hs] at hperm
      exact hperm.mem_iff.mp hy
    exact mergeLoop_pairwise xs x (hmem x (List.mem_cons_self x xs))
      (fun z hz => hmem z (List.mem_cons_of_mem x hz))

theorem mergeLoop_types :
    ∀ (rest : List RMatch) (current : RMatch) (m : RMatch),
      m ∈ mergeLoop current rest → m.type ∈ (current :: rest).map RMatch.type := by
  intro rest
  induction rest with
  | nil =>
    intro current m hm
    rw [mergeLoop, List.mem_singleton] at hm
    subst hm
    simp
  | cons next rest ih =>
    intro current m hm
    rw [mergeLoop] at hm
    split at hm
    · have h2 := ih (mergeStep current next) m hm
      rw [List.map_cons, List.mem_cons] at h2
      simp only [List.map_cons, List.mem_cons]
      rcases h2 with hh | hh
      · have hh2 : m.type =
            (if decide (current.priority < next.priority) then next.type else current.type) := hh
        by_cases hp : current.priority < next.priority
        · rw [if_pos (decide_eq_true hp)] at hh2
          tauto
        · rw [if_neg (by simpa using hp)] at hh2
          tauto
      · tauto
    · rcases List.mem_cons.mp hm with hm | hm
      · subst hm
        simp
      · have := ih next m hm
        simp only [List.map_cons, List.mem_cons] at this ⊢
        tauto

theorem mergeOverlaps_types {l : List RMatch} {m : RMatch}
    (hm : m ∈ mergeOverlaps l) : m.type ∈ l.map RMatch.type := by
  rw [mergeOverlaps] at hm
  cases hs : stableSort ltStartPriority l with
  | nil => rw [hs] at hm; cases hm
  | cons x xs =>
    rw [hs] at hm
    have := mergeLoop_types xs x m hm
    have hperm := stableSort_perm ltStartPriority l
    rw [hs] at hperm
    exact (hperm.map RMatch.type).mem_iff.mp this

/-! Lemmas about the identifier pass. -/

theorem buildRedactions_proj :
    ∀ (ms : List RMatch) (tc : List (List Char × Nat)),
      (buildRedactions ms tc).1.map (fun r => (r.start, r.endPos)) =
        ms.map (fun m => (m.start, m.endPos)) := by
  intro ms
  induction ms with
  | nil => intro tc; rfl
  | cons m rest ih =>
    intro tc
    rw [buildRedactions]
    simp only [List.map_cons]
    rw [ih]

theorem buildRedactions_len :
    ∀ (ms : List RMatch) (tc : List (List Char × Nat)),
      (buildRedactions ms tc).1.length = ms.length := by
  intro ms
  induction ms with
  | nil => intro tc; rfl
  | cons m rest ih =>
    intro tc
    rw [buildRedactions]
    simp only [List.length_cons]
    rw [ih]

theorem pairwise_transfer {α β γ : Type} {R : γ → γ → Prop} {f : α → γ} {g : β → γ} :
    ∀ (l2 : List β) (l1 : List α), l1.map f = l2.map g →
      l1.Pairwise (fun a b => R (f a) (f b)) → l2.Pairwise (fun a b => R (g a) (g b)) := by
  intro l2
  induction l2 with
  | nil => intro l1 _ _; exact List.Pairwise.nil
  | cons b l2 ih =>
    intro l1 hmap hp
    cases l1 with
    | nil => simp at hmap
    | cons a l1 =>
      simp only [List.map_cons, List.cons.injEq] at hmap
      obtain ⟨hab, htail⟩ := hmap
      cases hp with
      | cons hhead htl =>
        refine List.Pairwise.cons ?_ (ih l1 htail htl)
        intro y hy
        have hmem : g y ∈ l2.map g := List.mem_map_of_mem g hy
        rw [← htail] at hmem
        obtain ⟨x, hx, hgx⟩ := List.mem_map.mp hmem
        rw [← hab, ← hgx]
        exact hhead x hx

/-! Lemmas about the JS-object association lists and the summary pass. -/

theorem objGet_objSet_self {α : Type} (m : List (List Char × α)) (k : List Char) (v : α) :
    objGet (objSet m k v) k = some v := by
  induction m with
  | nil => simp [objSet, objGet]
  | cons kv t ih =>
    obtain ⟨k1, v1⟩ := kv
    rw [objSet]
    by_cases hk : (k1 == k) = true
    · rw [if_pos hk, objGet]
      simp
    · rw [if_neg hk, objGet, if_neg hk]
      exact ih

theorem sumVals_objSet_incr (m : List (List Char × Nat)) (k : List Char) :
    sumVals (objSet m k ((objGet m k).getD 0 + 1)) = sumVals m + 1 := by
  induction m with
  | nil => simp [objSet, objGet, sumVals]
  | cons kv t ih =>
    obtain ⟨k1, v1⟩ := kv
    rw [objGet, objSet]
    by_cases hk : (k1 == k) = true
    · rw [if_pos hk, if_pos hk]
      simp only [Option.getD_some, sumVals, List.map_cons, List.sum_cons]
      omega
    · rw [if_neg hk, if_neg hk]
      simp only [sumVals, List.map_cons, List.sum_cons] at ih ⊢
      omega

theorem keysOf_objSet_mem {α : Type} {m : List (List Char × α)} {k : List Char} {v : α} :
    ∀ x ∈ keysOf (objSet m k v), x = k ∨ x ∈ keysOf m := by
  induction m with
  | nil => intro x hx; simp [objSet, keysOf] at hx; tauto
  | cons kv t ih =>
    obtain ⟨k1, v1⟩ := kv
    intro x hx
    rw [objSet] at hx
    by_cases hk : (k1 == k) = true
    · rw [if_pos hk] at hx
      simp only [keysOf, List.map_cons, List.mem_cons] at hx ⊢
      tauto
    · rw [if_neg hk] at hx
      simp only [keysOf, List.map_cons, List.mem_cons] at hx ⊢
      rcases hx with hx | hx
      · tauto
      · rcases ih x hx with hx | hx <;> tauto

theorem keysOf_objSet_nodup {α : Type} {m : List (List Char × α)} {k : List Char} {v : α}
    (h : (keysOf m).Nodup) : (keysOf (objSet m k v)).Nodup := by
  induction m with
  | nil => simp [objSet, keysOf]
  | cons kv t ih =>
    obtain ⟨k1, v1⟩ := kv
    simp only [keysOf, List.map_cons, List.nodup_cons] at h
    rw [objSet]
    by_cases hk : (k1 == k) = true
    · rw [if_pos hk]
      have hk1 : k1 = k := by simpa using hk
      simp only [keysOf, List.map_cons, List.nodup_cons]
      exact ⟨hk1 ▸ h.1, h.2⟩
    · rw [if_neg hk]
      have hk1 : k1 ≠ k := by simpa using hk
      simp only [keysOf, List.map_cons, List.nodup_cons]
      refine ⟨?_, ih h.2⟩
      intro hmem
      rcases keysOf_objSet_mem k1 hmem with hx | hx
      · exact hk1 hx
      · exact h.1 hx

theorem objSet_fresh {α : Type} {m : List (List Char × α)} {k : List Char} {v : α}
    (h : k ∉ keysOf m) : objSet m k v = m ++ [(k, v)] := by
  induction m with
  | nil => simp [objSet]
  | cons kv t ih =>
    obtain ⟨k1, v1⟩ := kv
    simp only [keysOf, List.map_cons, List.mem_cons] at h
    rw [objSet]
    have hk : ¬ ((k1 == k) = true) := by
      simp only [beq_iff_eq]
      intro hx
      exact h (Or.inl hx.symm)
    rw [if_neg hk]
    rw [ih (fun hx => h (Or.inr hx))]
    simp

theorem keysOf_append {α : Type} (m l : List (List Char × α)) :
    keysOf (m ++ l) = keysOf m ++ keysOf l := by
  simp [keysOf]

theorem foldl_objSet_fresh :
    ∀ (tc : List (List Char × Nat)) (acc : List (List Char × Nat)),
      ((keysOf tc).map lowerStr).Nodup →
      (∀ x ∈ (keysOf tc).map lowerStr, x ∉ keysOf acc) →
      tc.foldl (fun a kv => objSet a (lowerStr kv.1) kv.2) acc
        = acc ++ tc.map (fun kv => (lowerStr kv.1, kv.2)) := by
  intro tc
  induction tc with
  | nil => intro acc _ _; simp
  | cons kv t ih =>
    intro acc hnd hfresh
    simp only [keysOf, List.map_cons, List.nodup_cons] at hnd
    simp only [List.foldl_cons]
    rw [objSet_fresh (by
      refine hfresh (lowerStr kv.1) ?_
      simp [keysOf])]
    rw [ih (acc ++ [(lowerStr kv.1, kv.2)]) hnd.2 ?fresh]
    · simp
    case fresh =>
      intro x hx
      rw [keysOf_append]
      simp only [List.mem_append]
      rintro (hmem | hmem)
      · exact hfresh x (by simpa [keysOf] using Or.inr hx) hmem
      · simp only [keysOf, List.map_cons, List.map_nil, List.mem_singleton] at hmem
        subst hmem
        simp only [keysOf] at hx
        exact hnd.1 hx

theorem buildSummary_props (tc : List (List Char × Nat)) (total : Nat)
    (hnd : ((keysOf tc).map lowerStr).Nodup)
    (hkey : ∀ x ∈ (keysOf tc).map lowerStr, x ≠ chars "totalRedactions") :
    objGet (buildSummary tc total) (chars "totalRedactions") = some total ∧
    sumCategoryCounts (buildSummary tc total) = sumVals tc := by
  have hfold := foldl_objSet_fresh tc [] hnd (by intro x _; simp [keysOf])
  have hkeys : keysOf (tc.map (fun kv => (lowerStr kv.1, kv.2))) = (keysOf tc).map lowerStr := by
    simp [keysOf, List.map_map, Function.comp]
  constructor
  · rw [buildSummary]
    exact objGet_objSet_self _ _ _
  · rw [buildSummary, hfold, List.nil_append]
    have hfresh : chars "totalRedactions" ∉ keysOf (tc.map (fun kv => (lowerStr kv.1, kv.2))) := by
      rw [hkeys]
      intro hmem
      exact hkey _ hmem rfl
    rw [objSet_fresh hfresh]
    rw [sumCategoryCounts, List.filter_append]
    have h1 : (tc.map (fun kv => (lowerStr kv.1, kv.2))).filter
        (fun kv => !(kv.1 == chars "totalRedactions")) = tc.map (fun kv => (lowerStr kv.1, kv.2)) := by
      apply List.filter_eq_self.mpr
      intro kv hkv
      have hmem : kv.1 ∈ keysOf (tc.map (fun kv => (lowerStr kv.1, kv.2))) := by
        rw [keysOf]
        exact List.mem_map_of_mem Prod.fst hkv
      rw [hkeys] at hmem
      have hne := hkey _ hmem
      simpa using hne
    rw [h1]
    have h2 : ([(chars "totalRedactions", total)].filter
        (fun kv => !(kv.1 == chars "totalRedactions"))) = [] := by simp
    rw [h2, List.append_nil]
    simp only [sumVals, List.map_map]
    have hcomp : (Prod.snd ∘ fun kv : List Char × Nat => (lowerStr kv.1, kv.2)) = Prod.snd :=
      funext (fun kv => rfl)
    rw [hcomp]

theorem buildRedactions_sum :
    ∀ (ms : List RMatch) (tc : List (List Char × Nat)),
      sumVals (buildRedactions ms tc).2 = sumVals tc + ms.length := by
  intro ms
  induction ms with
  | nil => intro tc; simp [buildRedactions]
  | cons m rest ih =>
    intro tc
    show sumVals (buildRedactions rest (objSet tc m.type ((objGet tc m.type).getD 0 + 1))).2
      = sumVals tc + (m :: rest).length
    rw [ih, sumVals_objSet_incr]
    simp only [List.length_cons]
    omega

theorem buildRedactions_keys :
    ∀ (ms : List RMatch) (tc : List (List Char × Nat)),
      ∀ x ∈ keysOf (buildRedactions ms tc).2, x ∈ keysOf tc ∨ x ∈ ms.map RMatch.type := by
  intro ms
  induction ms with
  | nil => intro tc x hx; exact Or.inl hx
  | cons m rest ih =>
    intro tc x hx
    have hx2 : x ∈ keysOf (buildRedactions rest (objSet tc m.type ((objGet tc m.type).getD 0 + 1))).2 := hx
    rcases ih _ x hx2 with hx3 | hx3
    · rcases keysOf_objSet_mem x hx3 with hx4 | hx4
      · right
        simp [hx4]
      · exact Or.inl hx4
    · right
      simp only [List.map_cons, List.mem_cons]
      tauto

theorem buildRedactions_nodup :
    ∀ (ms : List RMatch) (tc : List (List Char × Nat)),
      (keysOf tc).Nodup → (keysOf (buildRedactions ms tc).2).Nodup := by
  intro ms
  induction ms with
  | nil => intro tc h; exact h
  | cons m rest ih =>
    intro tc h
    show (keysOf (buildRedactions rest (objSet tc m.type ((objGet tc m.type).getD 0 + 1))).2).Nodup
    exact ih _ (keysOf_objSet_nodup h)

/-! Lemmas assembling the redaction pipeline. -/

theorem redactMatches_bounds (σ : List Nat) (s : List Char) (opts : RedactOptions) :
    ∀ m ∈ (List.map Prod.fst
        (List.zipWith (fun p li => findMatchesS p s li) REDACTION_PATTERNS σ)).flatten ++
        (List.map (fun p => findMatches p s) opts.customPatterns).flatten,
      m.start ≤ m.endPos := by
  intro m hm
  rcases List.mem_append.mp hm with hm | hm
  · obtain ⟨l, hl, hml⟩ := List.mem_flatten.mp hm
    obtain ⟨pr, hpr, rfl⟩ := List.mem_map.mp hl
    obtain ⟨p, _, li, _, rfl⟩ := zipWith_mem _ _ _ hpr
    have hml2 : m ∈ (findMatchesAux p s (s.length + 2) li).1 := hml
    exact (findMatchesAux_mem _ _ m hml2).1
  · obtain ⟨l, hl, hml⟩ := List.mem_flatten.mp hm
    obtain ⟨p, _, rfl⟩ := List.mem_map.mp hl
    have hml2 : m ∈ (findMatchesAux p s (s.length + 2) 0).1 := hml
    exact (findMatchesAux_mem _ _ m hml2).1

theorem redactMatches_types (σ : List Nat) (s : List Char) :
    ∀ m ∈ (List.map Prod.fst
        (List.zipWith (fun p li => findMatchesS p s li) REDACTION_PATTERNS σ)).flatten ++
        (List.map (fun p => findMatches p s) ([] : List RPattern)).flatten,
      m.type ∈ builtinTypes := by
  intro m hm
  rcases List.mem_append.mp hm with hm | hm
  · obtain ⟨l, hl, hml⟩ := List.mem_flatten.mp hm
    obtain ⟨pr, hpr, rfl⟩ := List.mem_map.mp hl
    obtain ⟨p, hp, li, _, rfl⟩ := zipWith_mem _ _ _ hpr
    have hml2 : m ∈ (findMatchesAux p s (s.length + 2) li).1 := hml
    have htype := (findMatchesAux_mem _ _ m hml2).2
    rw [builtinTypes, htype]
    exact List.mem_map_of_mem RPattern.type hp
  · simp at hm

theorem pipelineRedactions_pairwise {ms : List RMatch}
    (h : ∀ m ∈ ms, m.start ≤ m.endPos) :
    (buildRedactions (mergeOverlaps ms) []).1.Pairwise
      (fun a b => a.endPos < b.start ∧ a.start < b.start) := by
  have hp := mergeOverlaps_pairwise h
  have hmap := buildRedactions_proj (mergeOverlaps ms) []
  exact pairwise_transfer (R := fun p q : Nat × Nat => p.2 < q.1 ∧ p.1 < q.1)
    (f := fun m : RMatch => (m.start, m.endPos))
    (g := fun r : Redaction => (r.start, r.endPos))
    ((buildRedactions (mergeOverlaps ms) []).1) (mergeOverlaps ms) hmap.symm hp

/-! The Luhn checksum as a positional sum. -/

theorem luhnAux_spec :
    ∀ (l : List Nat) (n : Nat),
      luhnAux (decide (n % 2 = 1)) l =
        ((List.enumFrom n l).map (fun p => if p.1 % 2 = 1 then double9 p.2 else p.2)).sum := by
  intro l
  induction l with
  | nil => intro n; simp [luhnAux]
  | cons d t ih =>
    intro n
    rw [luhnAux]
    have hnot : (!decide (n % 2 = 1)) = decide ((n + 1) % 2 = 1) := by
      rcases Nat.mod_two_eq_zero_or_one n with h | h
      · have h1 : (n + 1) % 2 = 1 := by omega
        simp [h, h1]
      · have h1 : (n + 1) % 2 = 0 := by omega
        simp [h, h1]
    rw [hnot, ih (n + 1)]
    rw [List.enumFrom_cons, List.map_cons, List.sum_cons]
    by_cases hpar : n % 2 = 1 <;> simp [hpar]

theorem luhnCheck_iff (c : List Char) :
    luhnCheck c = true ↔
      (13 ≤ (digitsOf c).length ∧ (digitsOf c).length ≤ 19 ∧
        luhnSumSpec (digitsOf c) % 10 = 0) := by
  have hspec : luhnAux false (digitsOf c).reverse = luhnSumSpec (digitsOf c) := by
    have h := luhnAux_spec ((digitsOf c).reverse) 0
    rw [luhnSumSpec, List.enum_eq_enumFrom]
    simpa using h
  simp only [luhnCheck]
  split
  · rename_i hcond
    simp only [Bool.or_eq_true, decide_eq_true_eq] at hcond
    constructor
    · intro h; exact absurd h (by simp)
    · rintro ⟨h1, h2, _⟩
      exact absurd hcond (by omega)
  · rename_i hcond
    simp only [Bool.or_eq_true, decide_eq_true_eq, not_or, Nat.not_lt] at hcond
    rw [beq_iff_eq, hspec]
    constructor
    · intro h
      exact ⟨by omega, by omega, h⟩
    · rintro ⟨_, _, h⟩
      exact h

theorem listIncludes_iff (needle hay : List Char) :
    listIncludes needle hay = true ↔ needle <:+: hay := by
  induction hay with
  | nil =>
    rw [listIncludes, List.infix_nil]
    cases needle <;> simp [List.isEmpty]
  | cons c t ih =>
    rw [listIncludes, Bool.or_eq_true, List.infix_cons_iff, List.isPrefixOf_iff_prefix, ih]

/-! Claim theorems. -/

/-- Claim C1: the spec asserts the round-trip
`restoreOriginal(annotateForRedaction(T).rewrittenText, annotateForRedaction(T).annotations) = T`
for every `T`.  The code breaks it: on `"123-45-6789@x.com"` the SSN match
`[0,11)` and the email match `[0,17)` overlap, `mergeOverlaps` extends the
merged span's end to 17 without updating its stored `original`
(still `"123-45-6789"`), and `restoreText` therefore reinserts only that stale
original, losing `"@x.com"`. -/
theorem claim1_roundtrip_fails :
    restoreText (redactText (some (chars "123-45-6789@x.com")) {}).redactedText
        (redactText (some (chars "123-45-6789@x.com")) {}).redactions
      = chars "123-45-6789" ∧
    restoreText (redactText (some (chars "123-45-6789@x.com")) {}).redactedText
        (redactText (some (chars "123-45-6789@x.com")) {}).redactions
      ≠ chars "123-45-6789@x.com" :=
  ⟨by decide, by decide⟩

/-- Claim C2: for every text and options, the annotation list returned by
`redactText` is sorted by start offset ascending and pairwise non-overlapping:
each annotation's start is strictly greater than the previous annotation's
end. -/
theorem claim2_spans_sorted_nonoverlapping (t : List Char) (opts : RedactOptions) :
    (redactText (some t) opts).redactions.Pairwise
      (fun a b => a.endPos < b.start ∧ a.start < b.start) := by
  rw [redactText, redactTextS]
  by_cases he : t.isEmpty
  · rw [if_pos he]
    exact List.Pairwise.nil
  · rw [if_neg he]
    exact pipelineRedactions_pairwise (redactMatches_bounds initRedactState t opts)

/-- Claim C3 (evaluation at the failing input): three overlapping candidates
of priorities 5, 9, 7 (in start order) merge into one annotation whose
category is that of the priority-7 candidate, not the highest-priority (9)
contributor — `mergeOverlaps` compares each `next.priority` against the stale
`current.priority` of the first candidate, which is never updated after a
label switch. -/
theorem claim3_merged_label_not_highest :
    ((redactText (some (chars "aaaaabbbbbcccccddddd"))
        { customPatterns :=
            [addCustomPattern (chars "LOW5") (litRx (chars "aaaaabbbbb")) (some 5) none none,
             addCustomPattern (chars "HIGH9") (litRx (chars "bbbbbccccc")) (some 9) none none,
             addCustomPattern (chars "MID7") (litRx (chars "cccccddddd")) (some 7) none none] }).redactions.map
      (fun r => r.type)) = [chars "MID7"] := by decide

/-- Claim C4 (counterexample): with both category booleans false, `redactText`
still produces an SSN annotation — the destructured `redactPII` / `redactPHI`
options are never read by the implementation. -/
theorem claim4_counterexample :
    (redactText (some (chars "123-45-6789"))
        { redactPII := false, redactPHI := false }).redactions.map (fun r => r.type)
      = [chars "SSN"] := by decide

/-- Claim C4 (amended): the boolean options of `redactText` are accepted but
have no effect whatsoever — the result is independent of `redactPII` and
`redactPHI`; the full built-in catalog is always applied and `customPatterns`
are appended. -/
theorem claim4_booleans_ignored (t : Option (List Char)) (pii phi pii2 phi2 : Bool)
    (cps : List RPattern) :
    redactText t { redactPII := pii, redactPHI := phi, customPatterns := cps }
      = redactText t { redactPII := pii2, redactPHI := phi2, customPatterns := cps } := by
  cases t with
  | none => rfl
  | some s =>
    rw [redactText, redactText, redactTextS, redactTextS]
    by_cases he : s.isEmpty
    · rw [if_pos he, if_pos he]
    · rw [if_neg he, if_neg he]
      rfl

/-- Claim C5: `"4532015112830366"` (valid Luhn) yields exactly one
`CREDIT_CARD` annotation and `"4532015112830367"` (invalid Luhn) yields zero;
and `luhnCheck` accepts a candidate iff its digit count is in `[13,19]` and
the Luhn mod-10 checksum holds. -/
theorem claim5_luhn_gate :
    ((redactText (some (chars "4532015112830366")) {}).redactions.filter
        (fun r => r.type == chars "CREDIT_CARD")).length = 1 ∧
    ((redactText (some (chars "4532015112830367")) {}).redactions.filter
        (fun r => r.type == chars "CREDIT_CARD")).length = 0 ∧
    ∀ cand : List Char, luhnCheck cand = true ↔
      (13 ≤ (digitsOf cand).length ∧ (digitsOf cand).length ≤ 19 ∧
        luhnSumSpec (digitsOf cand) % 10 = 0) :=
  ⟨by decide, by decide, luhnCheck_iff⟩

/-- Claim C6: for null/non-string input (modelled `none`) and for the empty
string, both entry points return empty results — empty rewritten text, empty
annotation list, empty summary object, empty flag list — without throwing. -/
theorem claim6_degenerate_inputs (ropts : RedactOptions) (fopts : FlagOptions) :
    redactText none ropts = emptyRedactResult ∧
    redactText (some []) ropts = emptyRedactResult ∧
    flagSensitiveContent none fopts = emptyFlagResult ∧
    flagSensitiveContent (some []) fopts = emptyFlagResult :=
  ⟨rfl, rfl, rfl, rfl⟩

/-- Claim C7: in `mergeDuplicateFlags`, two candidates of the same category
within 50 characters collapse into one flag whose reason contains each
contributing reason as a substring, and a reason already present as a
substring is not appended again (the reason stays exactly the current one, so
two equal reasons surface once); candidates of different categories are never
merged, even at the same position. -/
theorem claim7_flag_merge (f1 f2 : FlagCandidate) (hpos : f1.position ≤ f2.position) :
    (f1.type = f2.type → absDiff f2.position f1.position ≤ 50 →
      (mergeDuplicateFlags [f1, f2]).length = 1 ∧
      ∀ m ∈ mergeDuplicateFlags [f1, f2],
        m.position = f1.position ∧ m.type = f1.type ∧
        m.reason.length ≥ f1.reason.length ∧
        f1.reason <:+: m.reason ∧ f2.reason <:+: m.reason ∧
        (f2.reason <:+: f1.reason → m.reason = f1.reason)) ∧
    (f1.type ≠ f2.type → mergeDuplicateFlags [f1, f2] = [f1, f2]) := by
  have hsort : stableSort (fun a b => decide (a.position < b.position)) [f1, f2] = [f1, f2] := by
    rw [stableSort, List.foldr_cons, List.foldr_cons, List.foldr_nil]
    rw [stableInsert, stableInsert]
    rw [if_neg (by simp only [decide_eq_true_eq]; omega)]
  have hmain : mergeDuplicateFlags [f1, f2]
      = if (f2.type == f1.type && decide (absDiff f2.position f1.position ≤ 50)) = true
        then [if listIncludes f2.reason f1.reason = true then f1
              else { f1 with reason := f1.reason ++ chars "; " ++ f2.reason }]
        else [f1, f2] := by
    rw [mergeDuplicateFlags, hsort]
    rfl
  constructor
  · intro hty hdist
    have hcond : (f2.type == f1.type &&
        decide (absDiff f2.position f1.position ≤ 50)) = true := by
      simp [hty.symm, hdist]
    rw [hmain, if_pos hcond]
    by_cases hinc : listIncludes f2.reason f1.reason = true
    · rw [if_pos hinc]
      refine ⟨rfl, ?_⟩
      intro m hm
      rw [List.mem_singleton] at hm
      subst hm
      exact ⟨rfl, rfl, Nat.le_refl _, List.infix_refl _, (listIncludes_iff _ _).mp hinc,
        fun _ => rfl⟩
    · rw [if_neg hinc]
      refine ⟨rfl, ?_⟩
      intro m hm
      rw [List.mem_singleton] at hm
      subst hm
      dsimp only
      refine ⟨rfl, rfl, by simp, ?_, ?_, ?_⟩
      · exact ((List.prefix_append f1.reason (chars "; ")).trans
          (List.prefix_append (f1.reason ++ chars "; ") f2.reason)).isInfix
      · exact (List.suffix_append (f1.reason ++ chars "; ") f2.reason).isInfix
      · intro hci
        exact absurd ((listIncludes_iff _ _).mpr hci) (by simp [hinc])
  · intro hne
    have hcond : (f2.type == f1.type) = false := by
      simp only [beq_eq_false_iff_ne, ne_eq]
      intro h
      exact hne h.symm
    rw [hmain, if_neg (by simp [hcond])]

/-- Claim C7 witness: two concrete same-category candidates 30 characters
apart merge into one flag with both reasons, and a concrete different-category
pair at the same position stays unmerged. -/
theorem claim7_witness :
    ((mergeDuplicateFlags [wFlagA, wFlagB]).length = 1 ∧
      ∀ m ∈ mergeDuplicateFlags [wFlagA, wFlagB],
        m.position = wFlagA.position ∧ m.type = wFlagA.type ∧
        m.reason.length ≥ wFlagA.reason.length ∧
        wFlagA.reason <:+: m.reason ∧ wFlagB.reason <:+: m.reason ∧
        (wFlagB.reason <:+: wFlagA.reason → m.reason = wFlagA.reason)) ∧
    mergeDuplicateFlags [wFlagA, wFlagC] = [wFlagA, wFlagC] :=
  ⟨(claim7_flag_merge wFlagA wFlagB (by decide)).1 (by decide) (by decide),
   (claim7_flag_merge wFlagA wFlagC (by decide)).2 (by decide)⟩

/-- Claim C8 (counterexample): the empty string is an input whose final flag
list contains zero HIGH-severity flags, yet its summary carries no
`riskLevel` key at all (the guard returns `{}`), so the risk level is not
`"LOW"` as the claim requires. -/
theorem claim8_counterexample :
    highCount (flagSensitiveContent (some []) {}).flags = 0 ∧
    objGet (flagSensitiveContent (some []) {}).summary (chars "riskLevel")
      ≠ some (JVal.str (chars "LOW")) :=
  ⟨rfl, by decide⟩

/-- Claim C8 (amended): for every non-empty input, the summary's `riskLevel`
is exactly `riskWord` of the number of HIGH-severity flags — `"HIGH"` iff that
count exceeds 3 (e.g. 4), `"MEDIUM"` iff it is in `[1,3]` (e.g. 1), else
`"LOW"`. -/
theorem claim8_risk_level (s : List Char) (opts : FlagOptions) (hne : s ≠ []) :
    objGet (flagSensitiveContent (some s) opts).summary (chars "riskLevel")
      = some (JVal.str (riskWord (highCount (flagSensitiveContent (some s) opts).flags))) ∧
    (highCount (flagSensitiveContent (some s) opts).flags = 4 →
      objGet (flagSensitiveContent (some s) opts).summary (chars "riskLevel")
        = some (JVal.str (chars "HIGH"))) ∧
    (highCount (flagSensitiveContent (some s) opts).flags = 1 →
      objGet (flagSensitiveContent (some s) opts).summary (chars "riskLevel")
        = some (JVal.str (chars "MEDIUM"))) ∧
    (highCount (flagSensitiveContent (some s) opts).flags = 0 →
      objGet (flagSensitiveContent (some s) opts).summary (chars "riskLevel")
        = some (JVal.str (chars "LOW"))) := by
  obtain ⟨c, t, rfl⟩ : ∃ c t, s = c :: t := by
    cases s with
    | nil => exact absurd rfl hne
    | cons c t => exact ⟨c, t, rfl⟩
  have hmain : objGet (flagSensitiveContent (some (c :: t)) opts).summary (chars "riskLevel")
      = some (JVal.str (riskWord (highCount (flagSensitiveContent (some (c :: t)) opts).flags))) := by
    show objGet (flagCore (c :: t) opts).summary (chars "riskLevel")
      = some (JVal.str (riskWord (highCount (flagCore (c :: t) opts).flags)))
    simp only [flagCore]
    exact objGet_objSet_self _ _ _
  refine ⟨hmain, ?_, ?_, ?_⟩ <;> intro h <;> rw [hmain, h] <;> rfl

/-- Claim C8 witness: concrete inputs with exactly 4, 1 and 0 HIGH-severity
flags produce risk levels HIGH, MEDIUM and LOW. -/
theorem claim8_witness :
    objGet (flagSensitiveContent
        (some (chars "privileged patient salary unlimited liability")) {}).summary
        (chars "riskLevel") = some (JVal.str (chars "HIGH")) ∧
    objGet (flagSensitiveContent (some (chars "privileged")) {}).summary
        (chars "riskLevel") = some (JVal.str (chars "MEDIUM")) ∧
    objGet (flagSensitiveContent (some (chars "hello")) {}).summary
        (chars "riskLevel") = some (JVal.str (chars "LOW")) :=
  ⟨(claim8_risk_level (chars "privileged patient salary unlimited liability") {}
      (by decide)).2.1 (by decide),
   (claim8_risk_level (chars "privileged") {} (by decide)).2.2.1 (by decide),
   (claim8_risk_level (chars "hello") {} (by decide)).2.2.2 (by decide)⟩

/-- Claim C9: `redactText` is deterministic across runs.  The module-level
regexes' `lastIndex` state is threaded explicitly: a call from the module's
initial state restores that state exactly (each `exec` loop ends with a failed
`exec`, which resets `lastIndex` to 0), so an immediately repeated call with
the same text and options computes the identical result. -/
theorem claim9_deterministic (t : Option (List Char)) (opts : RedactOptions) :
    (redactTextS initRedactState t opts).2 = initRedactState ∧
    (redactTextS ((redactTextS initRedactState t opts).2) t opts).1 = redactText t opts := by
  have key : (redactTextS initRedactState t opts).2 = initRedactState := by
    cases t with
    | none => rfl
    | some s =>
      rw [redactTextS]
      by_cases he : s.isEmpty
      · rw [if_pos he]
      · rw [if_neg he]
        show (redactCore initRedactState s opts).2 = initRedactState
        simp only [redactCore, REDACTION_PATTERNS, initRedactState, List.zipWith_cons_cons,
          List.zipWith_nil_left, List.map_cons, List.map_nil, List.cons.injEq, and_true]
        exact ⟨findMatchesS_snd (by decide), findMatchesS_snd (by decide),
          findMatchesS_snd (by decide), findMatchesS_snd (by decide),
          findMatchesS_snd (by decide), findMatchesS_snd (by decide),
          findMatchesS_snd (by decide), findMatchesS_snd (by decide)⟩
  refine ⟨key, ?_⟩
  rw [key]
  rfl

/-- Claim C10 (counterexample): for the empty string the guard returns the
empty summary object, which has no `totalRedactions` key, while the returned
annotation list has length 0 — so `summary.totalRedactions` does not equal
the annotation count there. -/
theorem claim10_counterexample :
    objGet (redactText (some []) {}).summary (chars "totalRedactions")
      ≠ some ((redactText (some []) {}).redactions.length) := by decide

/-- Claim C10 (amended): for every non-empty string input with default
options, the summary's `totalRedactions` equals the length of the returned
annotation list, and the per-category (lower-cased key) counts sum to that
same total. -/
theorem claim10_summary_consistent (s : List Char) (hne : s ≠ []) :
    objGet (redactText (some s) {}).summary (chars "totalRedactions")
      = some ((redactText (some s) {}).redactions.length) ∧
    sumCategoryCounts (redactText (some s) {}).summary
      = (redactText (some s) {}).redactions.length := by
  obtain ⟨c, t, rfl⟩ : ∃ c t, s = c :: t := by
    cases s with
    | nil => exact absurd rfl hne
    | cons c t => exact ⟨c, t, rfl⟩
  show objGet (redactCore initRedactState (c :: t) {}).1.summary (chars "totalRedactions")
      = some ((redactCore initRedactState (c :: t) {}).1.redactions.length) ∧
    sumCategoryCounts (redactCore initRedactState (c :: t) {}).1.summary
      = (redactCore initRedactState (c :: t) {}).1.redactions.length
  simp only [redactCore]
  have hsub : ∀ x ∈ keysOf (buildRedactions (mergeOverlaps
      ((List.map Prod.fst (List.zipWith (fun p li => findMatchesS p (c :: t) li)
          REDACTION_PATTERNS initRedactState)).flatten ++
        (List.map (fun p => findMatches p (c :: t))
          (RedactOptions.customPatterns {})).flatten)) []).2, x ∈ builtinTypes := by
    intro x hx
    rcases buildRedactions_keys _ _ x hx with hx | hx
    · simp [keysOf] at hx
    · obtain ⟨m, hm, rfl⟩ := List.mem_map.mp hx
      have hm2 := mergeOverlaps_types hm
      obtain ⟨m2, hm2m, hm2t⟩ := List.mem_map.mp hm2
      rw [← hm2t]
      exact redactMatches_types initRedactState (c :: t) m2 hm2m
  have hnodup := buildRedactions_nodup (mergeOverlaps
      ((List.map Prod.fst (List.zipWith (fun p li => findMatchesS p (c :: t) li)
          REDACTION_PATTERNS initRedactState)).flatten ++
        (List.map (fun p => findMatches p (c :: t))
          (RedactOptions.customPatterns {})).flatten)) [] (by simp [keysOf])
  have hinj : ∀ x ∈ builtinTypes, ∀ y ∈ builtinTypes, lowerStr x = lowerStr y → x = y := by
    decide
  have hnokey : ∀ y ∈ builtinTypes, lowerStr y ≠ chars "totalRedactions" := by decide
  have hnd2 := hnodup.map_on (fun x hx y hy hxy => hinj x (hsub x hx) y (hsub y hy) hxy)
  have hkey2 : ∀ x ∈ (keysOf (buildRedactions (mergeOverlaps
      ((List.map Prod.fst (List.zipWith (fun p li => findMatchesS p (c :: t) li)
          REDACTION_PATTERNS initRedactState)).flatten ++
        (List.map (fun p => findMatches p (c :: t))
          (RedactOptions.customPatterns {})).flatten)) []).2).map lowerStr,
      x ≠ chars "totalRedactions" := by
    intro x hx
    obtain ⟨y, hy, rfl⟩ := List.mem_map.mp hx
    exact hnokey y (hsub y hy)
  refine ⟨(buildSummary_props _ _ hnd2 hkey2).1, ?_⟩
  rw [(buildSummary_props _ _ hnd2 hkey2).2, buildRedactions_sum]
  rw [buildRedactions_len]
  simp [sumVals]

/-- Claim C10 witness: a concrete non-empty input satisfying the amended
summary-consistency invariant. -/
theorem claim10_witness :
    objGet (redactText (some (chars "a")) {}).summary (chars "totalRedactions")
      = some ((redactText (some (chars "a")) {}).redactions.length) ∧
    sumCategoryCounts (redactText (some (chars "a")) {}).summary
      = (redactText (some (chars "a")) {}).redactions.length :=
  ⟨(claim10_summary_consistent (chars "a") (by decide)).1,
   (claim10_summary_consistent (chars "a") (by decide)).2⟩

end ContractReview
